import Mathlib

/-!
Verification development for the skyeye radio-call parser core.

The Go sources embedded here are:
- `pkg/parser/parser.go` — sanitizer/wake-word/trigger-scanner/callsign
  pipeline (`Parse`, `parseWakeWord`, `parseCallsign`, `appendNumber`,
  `requestWords`, `numberWords`);
- `pkg/brevity/altitude.go` — the altitude stack aggregator (`Stacks`);
- the coalition predicate `IsSpectator`, present in the repository only
  through its test and modelled from the specification.

Strings are modelled by Lean `String` (a packed `List Char`), the token
stream by `List String`, machine integers by `Nat`/`Int`, and the
float64-based `unit.Length` by exact rationals measured in feet (the
library's metre-based representation is an exact positive rescaling that
does not affect any comparison or rounding performed by the code).
-/

namespace Skyeye

/-- Universal wake-word alias, from `const anyface = "anyface"`. -/
def anyface : String := "anyface"

/-- The enumeration of trigger phrases, from the `requestWord` constants. -/
inductive requestWord
  | alphaCheck
  | bogeyDope
  | declare
  | picture
  | radioCheck
  | spiked
  | snaplock
deriving DecidableEq

/-- Text of each trigger phrase, from the `requestWord` constant values. -/
def requestWordText : requestWord → String
  | .alphaCheck => "alpha check"
  | .bogeyDope => "bogey dope"
  | .declare => "declare"
  | .picture => "picture"
  | .radioCheck => "radio check"
  | .spiked => "spiked"
  | .snaplock => "snaplock"

/-- Enumeration order of the trigger vocabulary, from `requestWords()`. -/
def requestWords : List requestWord :=
  [.alphaCheck, .bogeyDope, .declare, .picture, .radioCheck, .spiked, .snaplock]

/-- The digit-word table, from the `numberWords` map literal. -/
def numberWordTable : List (String × Nat) :=
  [("0", 0), ("zero", 0), ("o", 0), ("oh", 0),
   ("1", 1), ("one", 1), ("wun", 1),
   ("2", 2), ("two", 2),
   ("3", 3), ("three", 3), ("tree", 3),
   ("4", 4), ("four", 4), ("fower", 4),
   ("5", 5), ("five", 5), ("fife", 5),
   ("6", 6), ("six", 6),
   ("7", 7), ("seven", 7),
   ("8", 8), ("eight", 8), ("ait", 8),
   ("9", 9), ("nine", 9), ("niner", 9)]

/-- Lookup in the digit-word map, `numberWords[number]`. -/
def numberWords (s : String) : Option Nat :=
  numberWordTable.lookup s

/-- Embeds `appendNumber`: append the decoded digit, space-delimited, to the
callsign, or report failure leaving the callsign unchanged. -/
def appendNumber (callsign number : String) : String × Bool :=
  match numberWords number with
  | some d => (callsign ++ " " ++ toString d, true)
  | none => (callsign, false)

/-- Embeds the character-by-character loop inside `parseCallsign` that handles
glued multi-digit tokens. Besides the callsign and validity flag it returns
whether the loop aborted on an undecodable character (the Go code then returns
from `parseCallsign` immediately). -/
def charLoop (callsign : String) (valid : Bool) : List Char → String × Bool × Bool
  | [] => (callsign, valid, false)
  | c :: rest =>
    match appendNumber callsign (String.singleton c) with
    | (s, true) => charLoop s true rest
    | (_, false) => (callsign, valid, true)

/-- Embeds the `for scanner.Scan()` loop of `parseCallsign` over the tokens
after the first. -/
def parseCallsignLoop (callsign : String) (valid : Bool) : List String → String × Bool
  | [] => (callsign, valid)
  | t :: rest =>
    match appendNumber callsign t with
    | (s, true) => parseCallsignLoop s true rest
    | (_, false) =>
      match charLoop callsign valid t.data with
      | (cs, v, true) => (cs, v)
      | (cs, v, false) => parseCallsignLoop cs v rest

/-- Embeds `parseCallsign` over the whitespace-tokenized callsign segment. -/
def parseCallsign (toks : List String) : String × Bool :=
  match toks with
  | [] => ("", false)
  | firstToken :: rest =>
    if firstToken = "" then ("", false)
    else
      match appendNumber "" firstToken with
      | (s, true) => parseCallsignLoop s true rest
      | (_, false) => parseCallsignLoop firstToken false rest

/-- Embeds `strings.HasSuffix`. -/
def hasSuffix (s w : String) : Bool :=
  w.data.isSuffixOf s.data

/-- Embeds `strings.TrimSuffix`. -/
def trimSuffix (s w : String) : String :=
  if hasSuffix s w then String.mk (s.data.take (s.data.length - w.data.length)) else s

/-- Embeds `bufio.ScanWords` tokenization: split on whitespace, never
producing an empty token. The accumulator holds the current word reversed. -/
def splitWordsAux (acc : List Char) : List Char → List String
  | [] => if acc.isEmpty then [] else [String.mk acc.reverse]
  | c :: rest =>
    if c.isWhitespace then
      if acc.isEmpty then splitWordsAux [] rest
      else String.mk acc.reverse :: splitWordsAux [] rest
    else splitWordsAux (c :: acc) rest

/-- Tokenize a string into whitespace-delimited words, as the
`bufio.Scanner` with `bufio.ScanWords` does. -/
def tokenize (s : String) : List String :=
  splitWordsAux [] s.data

/-- The inner vocabulary scan of `Parse`: the first trigger phrase, in
enumeration order, that is a suffix of the accumulated segment. -/
def firstMatch (segment : String) : Option requestWord :=
  requestWords.find? fun w => hasSuffix segment (requestWordText w)

/-- The closed set of request variants produced by `Parse`. The bearing is in
degrees. The last four variants stand for the bogey dope, declare, picture and
snaplock requests, whose per-request parsers are not among the sources; per
the spec each carries the callsign plus variant-specific fields that are
external to the worked core, so only the callsign is recorded here. -/
inductive Request
  | alphaCheckRequest (callsign : String)
  | radioCheckRequest (callsign : String)
  | spikedRequest (callsign : String) (bearing : Nat)
  | bogeyDopeRequest (callsign : String)
  | declareRequest (callsign : String)
  | pictureRequest (callsign : String)
  | snaplockRequest (callsign : String)
deriving DecidableEq

/-- A family of per-request token consumers, one per trigger word: given the
decoded callsign, the scanner's current token and the unread remainder of the
stream, produce a request or fail. -/
def Handlers : Type :=
  requestWord → String → String → List String → Option Request

/-- Modelled from the spec: the per-request parser for the bearing-report
trigger (`parseSpiked`) is not among the sources. Per the spec it consumes the
remainder of the stream as three single-digit tokens and composes them into a
three-digit angle in degrees. `Parse` has already advanced the scanner once
after the trigger match, so the first digit is read from the scanner's current
token and the other two from the next tokens; this is what the repository's
own test requires (digits 2, 7, 0 after "SPIKED" yield 270 degrees). -/
def parseSpiked (callsign cur : String) (rest : List String) : Option Request :=
  match numberWords cur with
  | none => none
  | some d1 =>
    match rest with
    | t2 :: t3 :: _ =>
      match numberWords t2, numberWords t3 with
      | some d2, some d3 => some (.spikedRequest callsign (100 * d1 + 10 * d2 + d3))
      | _, _ => none
    | _ => none

/-- The `switch rWord` dispatch at the end of `Parse`. Alpha check and radio
check are simple requests returning immediately; spiked goes to the
bearing-report consumer; the four request parsers absent from the sources are
taken as a parameter. -/
def dispatch (other : Handlers) (w : requestWord) (cs cur : String)
    (rest : List String) : Option Request :=
  match w with
  | .alphaCheck => some (.alphaCheckRequest cs)
  | .radioCheck => some (.radioCheckRequest cs)
  | .spiked => parseSpiked cs cur rest
  | w => other w cs cur rest

/-- The parser's immutable configuration, from `type parser struct`. -/
structure parserState where
  callsign : String
deriving DecidableEq

/-- Embeds `New()`, which returns `&parser{}`: the configured controller
callsign is the zero value, the empty string. -/
def New : parserState :=
  ⟨""⟩

/-- Embeds `parseWakeWord`: read one token and succeed iff it equals the
configured callsign or the universal alias. -/
def parseWakeWord (p : parserState) : List String → Option (String × List String)
  | [] => none
  | t :: rest =>
    if t = p.callsign ∨ t = anyface then some (t, rest) else none

/-- Embeds the trigger-scanner loop of `Parse`: accumulate tokens into the
space-joined segment; on the first suffix match parse the callsign from the
trimmed segment (failure fails the whole parse), advance the scanner once
more, and exit with the scanner's current token and unread remainder. If the
parsed callsign were empty the Go loop would keep scanning, which the second
recursive call mirrors; the stream running out is failure. -/
def scanLoop (segment : String) : List String → Option (requestWord × String × String × List String)
  | [] => none
  | t :: rest =>
    let seg := segment ++ " " ++ t
    match firstMatch seg with
    | none => scanLoop seg rest
    | some w =>
      match parseCallsign (tokenize (trimSuffix seg (requestWordText w))) with
      | (_, false) => none
      | (cs, true) =>
        if cs = "" then
          match rest with
          | [] => none
          | _ :: rest2 => scanLoop seg rest2
        else
          some (w, cs, rest.headD "", rest.tail)

/-- Embeds `Parse` on an already sanitized and tokenized transmission: check
the wake word, scan for a trigger and callsign, then dispatch to the
per-request parser. -/
def ParseTokens (other : Handlers) (p : parserState) (toks : List String) : Option Request :=
  match parseWakeWord p toks with
  | none => none
  | some (_, rest) =>
    match scanLoop "" rest with
    | none => none
    | some (w, cs, cur, rem) => dispatch other w cs cur rem

/-- Trivial instantiation of the four request parsers absent from the
sources; used only to state closed, concrete evaluations whose computation
never reaches them. -/
def noHandlers : Handlers :=
  fun _ _ _ _ => none

/-- Embeds `math.Round`: round to the nearest integer, halves away from
zero, so `goRound q = -(goRound (-q))`. Expressed through the executable
`Rat.floor`. -/
def goRound (q : ℚ) : ℤ :=
  if 0 ≤ q then Rat.floor (q + 1 / 2) else -Rat.floor (1 / 2 - q)

/-- The banding step `unit.Length(math.Round(alt.Feet()/1000)) * 1000 *
unit.Foot` applied to an altitude measured in feet: round to the nearest
1000-foot band. -/
def band (x : ℚ) : ℚ :=
  (goRound (x / 1000) : ℚ) * 1000

/-- Embeds `type Stack struct`: one layer of an altitude stack. -/
structure Stack where
  altitude : ℚ
  count : ℕ
deriving DecidableEq

/-- One iteration of the stack-building loop in `Stacks`: look at the last
element of the stack list (the currently open stack); append a new singleton
stack when the altitude is at least 9900 below it, otherwise increment its
count. An empty list starts the first stack. -/
def pushAlt (alt : ℚ) : List Stack → List Stack
  | [] => [⟨alt, 1⟩]
  | [s] =>
    if alt ≤ s.altitude - 9900 then [s, ⟨alt, 1⟩]
    else [⟨s.altitude, s.count + 1⟩]
  | s :: rest => s :: pushAlt alt rest

/-- Embeds `Stacks` together with the final contents of its argument slice:
the Go function rounds each element of `a` in place, sorts `a` in place
ascending with `slices.SortFunc`, and then builds the stacks iterating from
the last (highest) element down. The first component is the returned stack
list, the second the slice contents after the call. -/
def StacksRun (a : List ℚ) : List Stack × List ℚ :=
  let sorted := (a.map band).insertionSort (· ≤ ·)
  (sorted.reverse.foldl (fun st alt => pushAlt alt st) [], sorted)

/-- The return value of `Stacks`. -/
def Stacks (a : List ℚ) : List Stack :=
  (StacksRun a).1

/-- Total number of aircraft counted over a stack list. -/
def sumCounts (st : List Stack) : ℕ :=
  (st.map Stack.count).sum

/-- Separation of two consecutive stacks: the later stack's band is more than
9900 below the earlier one's. -/
def stackGap (s t : Stack) : Prop :=
  t.altitude + 9900 < s.altitude

/-- Claim-version of the trigger scanner, following the claim's words rather
than the source: after a trigger match and successful callsign parse, one
post-trigger token is discarded outright, the per-request parser never sees
it, and the second post-trigger token is the first one the parser consumes
(it becomes the current token handed to the parser). Compare with
`scanLoop`, which advances the scanner once but hands the advanced-to token
to the parser as its current token. -/
def scanLoopClaim (segment : String) : List String → Option (requestWord × String × String × List String)
  | [] => none
  | t :: rest =>
    let seg := segment ++ " " ++ t
    match firstMatch seg with
    | none => scanLoopClaim seg rest
    | some w =>
      match parseCallsign (tokenize (trimSuffix seg (requestWordText w))) with
      | (_, false) => none
      | (cs, true) =>
        if cs = "" then
          match rest with
          | [] => none
          | _ :: rest2 => scanLoopClaim seg rest2
        else
          some (w, cs, rest.tail.headD "", rest.tail.tail)

/-- Claim-version of `Parse`, built on `scanLoopClaim`. -/
def ParseTokensClaim (other : Handlers) (p : parserState) (toks : List String) : Option Request :=
  match parseWakeWord p toks with
  | none => none
  | some (_, rest) =>
    match scanLoopClaim "" rest with
    | none => none
    | some (w, cs, cur, rem) => dispatch other w cs cur rem

/-- Instrumented copy of `charLoop` that additionally counts how many digits
have been appended to the callsign; used only to state the validity
invariant. -/
def charLoopCount (callsign : String) (valid : Bool) (n : ℕ) :
    List Char → String × Bool × ℕ × Bool
  | [] => (callsign, valid, n, false)
  | c :: rest =>
    match appendNumber callsign (String.singleton c) with
    | (s, true) => charLoopCount s true (n + 1) rest
    | (_, false) => (callsign, valid, n, true)

/-- Instrumented copy of `parseCallsignLoop` counting appended digits. -/
def parseCallsignLoopCount (callsign : String) (valid : Bool) (n : ℕ) :
    List String → String × Bool × ℕ
  | [] => (callsign, valid, n)
  | t :: rest =>
    match appendNumber callsign t with
    | (s, true) => parseCallsignLoopCount s true (n + 1) rest
    | (_, false) =>
      match charLoopCount callsign valid n t.data with
      | (cs, v, m, true) => (cs, v, m)
      | (cs, v, m, false) => parseCallsignLoopCount cs v m rest

/-- Instrumented copy of `parseCallsign` counting appended digits. -/
def parseCallsignCount (toks : List String) : String × Bool × ℕ :=
  match toks with
  | [] => ("", false, 0)
  | firstToken :: rest =>
    if firstToken = "" then ("", false, 0)
    else
      match appendNumber "" firstToken with
      | (s, true) => parseCallsignLoopCount s true 1 rest
      | (_, false) => parseCallsignLoopCount firstToken false 0 rest

/-- The segment accumulated by the trigger scanner after reading the given
tokens: each token is appended preceded by one space, starting from the empty
string. -/
def accumSeg (toks : List String) : String :=
  toks.foldl (fun s t => s ++ " " ++ t) ""

/-- The text appended to a callsign by character-by-character decoding of a
run of characters from the digit table: each character's decoded digit, each
preceded by one space, in the original character order. -/
def glueChars : List Char → String
  | [] => ""
  | c :: rest => " " ++ toString ((numberWords (String.singleton c)).getD 0) ++ glueChars rest

/-- The text appended to a callsign by character-by-character decoding of a
token all of whose characters are in the digit table. -/
def glueDigits (t : String) : String :=
  glueChars t.data

/-- Modelled from the spec: the reserved red-team coalition constant, absent
from the sources (only its test is present). Value chosen to satisfy that
test, in which 0 and every value from 3 up is a non-participant. -/
def CoalitionRed : ℤ := 1

/-- Modelled from the spec: the reserved blue-team coalition constant, absent
from the sources (only its test is present). -/
def CoalitionBlue : ℤ := 2

/-- Modelled from the spec: `IsSpectator` is absent from the sources (only
its test is present); per the spec it is true iff the value is not one of the
two reserved team constants, with no upper bound on coalition values. -/
def IsSpectator (c : ℤ) : Bool :=
  !(c == CoalitionBlue || c == CoalitionRed)

/-! Helper lemmas. -/

theorem mk_reverse_ne_empty (acc : List Char) (hacc : ¬acc.isEmpty = true) :
    String.mk acc.reverse ≠ "" := by
  intro h
  have hdata : acc.reverse = [] := by simpa [String.ext_iff] using h
  simp [List.isEmpty_iff] at hacc
  exact hacc (by simpa using hdata)

theorem splitWordsAux_mem_ne_empty (l : List Char) :
    ∀ (acc : List Char) (t : String), t ∈ splitWordsAux acc l → t ≠ "" := by
  induction l with
  | nil =>
    intro acc t ht
    unfold splitWordsAux at ht
    by_cases hacc : acc.isEmpty
    · simp [hacc] at ht
    · simp [hacc] at ht
      subst ht
      exact mk_reverse_ne_empty acc hacc
  | cons c rest ih =>
    intro acc t ht
    unfold splitWordsAux at ht
    by_cases hw : c.isWhitespace
    · simp only [hw, if_true] at ht
      by_cases hacc : acc.isEmpty
      · rw [if_pos hacc] at ht
        exact ih [] t ht
      · rw [if_neg hacc] at ht
        rcases List.mem_cons.mp ht with h | h
        · subst h
          exact mk_reverse_ne_empty acc hacc
        · exact ih [] t h
    · simp only [hw, if_false] at ht
      exact ih (c :: acc) t ht

theorem tokenize_mem_ne_empty (s : String) (t : String) (ht : t ∈ tokenize s) : t ≠ "" :=
  splitWordsAux_mem_ne_empty s.data [] t ht

theorem string_append_assoc (a b c : String) : a ++ b ++ c = a ++ (b ++ c) := by
  apply String.ext
  simp [List.append_assoc]

theorem appendNumber_true_ne_empty (cs n s : String) (h : appendNumber cs n = (s, true)) :
    s ≠ "" := by
  unfold appendNumber at h
  cases hn : numberWords n with
  | none => rw [hn] at h; exact absurd h (by simp)
  | some d =>
    rw [hn] at h
    have hs : s = cs ++ " " ++ toString d := by
      have := congrArg Prod.fst h
      simpa using this.symm
    subst hs
    intro he
    have hd : (cs ++ " " ++ toString d).data = [] := by
      rw [he]
    simp at hd

theorem charLoop_fst_ne_empty (l : List Char) :
    ∀ (cs : String) (v : Bool), cs ≠ "" → (charLoop cs v l).1 ≠ "" := by
  induction l with
  | nil => intro cs v h; simpa [charLoop] using h
  | cons c rest ih =>
    intro cs v h
    unfold charLoop
    cases ha : appendNumber cs (String.singleton c) with
    | mk s ok =>
      cases ok with
      | true => exact ih s true (appendNumber_true_ne_empty cs (String.singleton c) s ha)
      | false => simpa using h

theorem parseCallsignLoop_fst_ne_empty (l : List String) :
    ∀ (cs : String) (v : Bool), cs ≠ "" → (parseCallsignLoop cs v l).1 ≠ "" := by
  induction l with
  | nil => intro cs v h; simpa [parseCallsignLoop] using h
  | cons t rest ih =>
    intro cs v h
    unfold parseCallsignLoop
    cases ha : appendNumber cs t with
    | mk s ok =>
      cases ok with
      | true => exact ih s true (appendNumber_true_ne_empty cs t s ha)
      | false =>
        have hs : s = cs := by
          unfold appendNumber at ha
          cases hn : numberWords t with
          | none =>
            rw [hn] at ha
            have := congrArg Prod.fst ha
            simp at this
            exact this.symm
          | some d => rw [hn] at ha; exact absurd (congrArg Prod.snd ha) (by simp)
        subst hs
        cases hc : charLoop s v t.data with
        | mk cs' rest' =>
          cases rest' with
          | mk v' aborted =>
            have hcne : cs' ≠ "" := by
              have := charLoop_fst_ne_empty t.data s v h
              rw [hc] at this
              exact this
            cases aborted with
            | true => simpa using hcne
            | false => exact ih cs' v' hcne

theorem parseCallsign_true_ne_empty (toks : List String) (cs : String)
    (h : parseCallsign toks = (cs, true)) : cs ≠ "" := by
  cases toks with
  | nil => simp [parseCallsign] at h
  | cons t rest =>
    simp only [parseCallsign] at h
    by_cases hte : t = ""
    · rw [if_pos hte] at h
      exact absurd (congrArg Prod.snd h) (by simp)
    · rw [if_neg hte] at h
      cases ha : appendNumber "" t with
      | mk s ok =>
        rw [ha] at h
        cases ok with
        | true =>
          have hthis := parseCallsignLoop_fst_ne_empty rest s true
            (appendNumber_true_ne_empty "" t s ha)
          have h2 : parseCallsignLoop s true rest = (cs, true) := h
          rw [h2] at hthis
          exact hthis
        | false =>
          have hthis := parseCallsignLoop_fst_ne_empty rest t false hte
          have h2 : parseCallsignLoop t false rest = (cs, true) := h
          rw [h2] at hthis
          exact hthis

theorem charLoopCount_proj (l : List Char) : ∀ (cs : String) (v : Bool) (n : ℕ),
    charLoop cs v l =
      ((charLoopCount cs v n l).1, (charLoopCount cs v n l).2.1, (charLoopCount cs v n l).2.2.2) := by
  induction l with
  | nil => intro cs v n; simp [charLoop, charLoopCount]
  | cons c rest ih =>
    intro cs v n
    unfold charLoop charLoopCount
    cases ha : appendNumber cs (String.singleton c) with
    | mk s ok =>
      cases ok with
      | true => exact ih s true (n + 1)
      | false => simp

theorem charLoopCount_le (l : List Char) : ∀ (cs : String) (v : Bool) (n : ℕ),
    n ≤ (charLoopCount cs v n l).2.2.1 := by
  induction l with
  | nil => intro cs v n; simp [charLoopCount]
  | cons c rest ih =>
    intro cs v n
    unfold charLoopCount
    cases ha : appendNumber cs (String.singleton c) with
    | mk s ok =>
      cases ok with
      | true => exact le_trans (Nat.le_succ n) (ih s true (n + 1))
      | false => simp

theorem charLoopCount_valid (l : List Char) : ∀ (cs : String) (v : Bool) (n : ℕ),
    (charLoopCount cs v n l).2.1 = true ↔
      (v = true ∨ n < (charLoopCount cs v n l).2.2.1) := by
  induction l with
  | nil => intro cs v n; simp [charLoopCount]
  | cons c rest ih =>
    intro cs v n
    unfold charLoopCount
    cases ha : appendNumber cs (String.singleton c) with
    | mk s ok =>
      cases ok with
      | true =>
        have hle := charLoopCount_le rest s true (n + 1)
        have hv := (ih s true (n + 1)).mpr (Or.inl rfl)
        constructor
        · intro _
          exact Or.inr (lt_of_lt_of_le (Nat.lt_succ_self n) hle)
        · intro _
          exact hv
      | false => simp

theorem parseCallsignLoopCount_proj (l : List String) : ∀ (cs : String) (v : Bool) (n : ℕ),
    parseCallsignLoop cs v l =
      ((parseCallsignLoopCount cs v n l).1, (parseCallsignLoopCount cs v n l).2.1) := by
  induction l with
  | nil => intro cs v n; simp [parseCallsignLoop, parseCallsignLoopCount]
  | cons t rest ih =>
    intro cs v n
    unfold parseCallsignLoop parseCallsignLoopCount
    cases ha : appendNumber cs t with
    | mk s ok =>
      cases ok with
      | true => exact ih s true (n + 1)
      | false =>
        rw [charLoopCount_proj t.data cs v n]
        cases hcc : charLoopCount cs v n t.data with
        | mk cs' rest' =>
          obtain ⟨v', m, ab⟩ := rest'
          cases ab with
          | true => simp
          | false => simpa using ih cs' v' m

theorem parseCallsignLoopCount_le (l : List String) : ∀ (cs : String) (v : Bool) (n : ℕ),
    n ≤ (parseCallsignLoopCount cs v n l).2.2 := by
  induction l with
  | nil => intro cs v n; simp [parseCallsignLoopCount]
  | cons t rest ih =>
    intro cs v n
    unfold parseCallsignLoopCount
    cases ha : appendNumber cs t with
    | mk s ok =>
      cases ok with
      | true => exact le_trans (Nat.le_succ n) (ih s true (n + 1))
      | false =>
        have hcle := charLoopCount_le t.data cs v n
        cases hcc : charLoopCount cs v n t.data with
        | mk cs' rest' =>
          obtain ⟨v', m, ab⟩ := rest'
          rw [hcc] at hcle
          simp only at hcle
          cases ab with
          | true => simpa using hcle
          | false =>
            have := ih cs' v' m
            simp only
            exact le_trans hcle this

theorem parseCallsignLoopCount_valid (l : List String) : ∀ (cs : String) (v : Bool) (n : ℕ),
    (parseCallsignLoopCount cs v n l).2.1 = true ↔
      (v = true ∨ n < (parseCallsignLoopCount cs v n l).2.2) := by
  induction l with
  | nil => intro cs v n; simp [parseCallsignLoopCount]
  | cons t rest ih =>
    intro cs v n
    unfold parseCallsignLoopCount
    cases ha : appendNumber cs t with
    | mk s ok =>
      cases ok with
      | true =>
        have hle := parseCallsignLoopCount_le rest s true (n + 1)
        have hv := (ih s true (n + 1)).mpr (Or.inl rfl)
        constructor
        · intro _
          exact Or.inr (lt_of_lt_of_le (Nat.lt_succ_self n) hle)
        · intro _
          exact hv
      | false =>
        have hcv := charLoopCount_valid t.data cs v n
        have hcle := charLoopCount_le t.data cs v n
        cases hcc : charLoopCount cs v n t.data with
        | mk cs' rest' =>
          obtain ⟨v', m, ab⟩ := rest'
          rw [hcc] at hcv hcle
          simp only at hcv hcle
          cases ab with
          | true => simpa using hcv
          | false =>
            have hloople := parseCallsignLoopCount_le rest cs' v' m
            have hih := ih cs' v' m
            simp only
            rw [hih]
            constructor
            · rintro (hv' | hlt)
              · rcases hcv.mp hv' with hv | hnm
                · exact Or.inl hv
                · exact Or.inr (lt_of_lt_of_le hnm hloople)
              · exact Or.inr (lt_of_le_of_lt hcle hlt)
            · rintro (hv | hlt)
              · exact Or.inl (hcv.mpr (Or.inl hv))
              · by_cases hnm : n < m
                · exact Or.inl (hcv.mpr (Or.inr hnm))
                · exact Or.inr (lt_of_le_of_lt (Nat.le_of_not_lt hnm) hlt)

/-! Claim C8. -/

/-- C8: the validity flag returned by the callsign parser is true iff at
least one digit was successfully decoded and appended to the callsign during
the parse, whether or not decoding later stopped early on an undecodable
token. The first conjunct ties the source function to its instrumented copy,
which additionally counts appended digits; the second states the
invariant. -/
theorem parseCallsign_valid_iff_digit_appended (toks : List String) :
    parseCallsign toks = ((parseCallsignCount toks).1, (parseCallsignCount toks).2.1) ∧
    ((parseCallsignCount toks).2.1 = true ↔ 0 < (parseCallsignCount toks).2.2) := by
  cases toks with
  | nil => simp [parseCallsign, parseCallsignCount]
  | cons t rest =>
    simp only [parseCallsign, parseCallsignCount]
    by_cases hte : t = ""
    · simp [hte]
    · rw [if_neg hte, if_neg hte]
      cases ha : appendNumber "" t with
      | mk s ok =>
        cases ok with
        | true =>
          refine ⟨parseCallsignLoopCount_proj rest s true 1, ?_⟩
          have hle := parseCallsignLoopCount_le rest s true 1
          have hv := (parseCallsignLoopCount_valid rest s true 1).mpr (Or.inl rfl)
          constructor
          · intro _
            exact lt_of_lt_of_le Nat.zero_lt_one hle
          · intro _
            exact hv
        | false =>
          refine ⟨parseCallsignLoopCount_proj rest t false 0, ?_⟩
          rw [parseCallsignLoopCount_valid rest t false 0]
          simp

theorem charLoop_all_decodable (l : List Char) : ∀ (cs : String) (v : Bool),
    (∀ c ∈ l, (numberWords (String.singleton c)).isSome = true) →
    charLoop cs v l = (cs ++ glueChars l, (if l.isEmpty then v else true), false) := by
  induction l with
  | nil =>
    intro cs v _
    simp [charLoop, glueChars]
  | cons c rest ih =>
    intro cs v hall
    have hc : (numberWords (String.singleton c)).isSome = true :=
      hall c (List.mem_cons_self c rest)
    obtain ⟨d, hd⟩ := Option.isSome_iff_exists.mp hc
    have ha : appendNumber cs (String.singleton c) = (cs ++ " " ++ toString d, true) := by
      unfold appendNumber
      rw [hd]
    simp only [charLoop, ha]
    rw [ih (cs ++ " " ++ toString d) true fun c' hc' => hall c' (List.mem_cons_of_mem c hc')]
    simp only [glueChars, hd, Option.getD_some, List.isEmpty_cons]
    simp [string_append_assoc]

/-! Claim C9. -/

/-- C9: when a token after the first is not directly in the digit table but
every one of its characters is (a glued multi-digit run such as "14"), the
callsign parser appends each character's decoded digit to the callsign
individually, space-delimited, in the token's original character order, marks
the callsign valid, and goes on to the remaining tokens. -/
theorem parseCallsign_glued_digits (cs : String) (v : Bool) (t : String) (rest : List String)
    (hnum : numberWords t = none) (hne : t.data ≠ [])
    (hall : ∀ c ∈ t.data, (numberWords (String.singleton c)).isSome = true) :
    parseCallsignLoop cs v (t :: rest) = parseCallsignLoop (cs ++ glueDigits t) true rest := by
  have ha : appendNumber cs t = (cs, false) := by
    unfold appendNumber
    rw [hnum]
  have hie : t.data.isEmpty = false := by
    cases ht : t.data with
    | nil => exact absurd ht hne
    | cons c l => simp
  have hcl := charLoop_all_decodable t.data cs v hall
  rw [hie] at hcl
  simp only [Bool.false_eq_true, if_false] at hcl
  simp only [parseCallsignLoop, ha, hcl, glueDigits]

/-- Witness for C9: decoding the glued token "14" after the prefix "raven"
appends the digits 1 and 4 separately and in order. -/
theorem parseCallsign_glued_digits_witness :
    numberWords "14" = none ∧
    parseCallsignLoop "raven" false ["14"] = parseCallsignLoop ("raven" ++ glueDigits "14") true [] ∧
    "raven" ++ glueDigits "14" = "raven 1 4" :=
  ⟨by decide,
   parseCallsign_glued_digits "raven" false "14" [] (by decide) (by decide) (by decide),
   by decide⟩

/-! Claim C4. -/

/-- C4: the non-participant predicate is true iff the coalition value is not
one of the two reserved team constants; it is false for exactly those two
constants and true for every other integer, with no upper bound — in
particular for 0 and for every value from 3 up, as the repository test
demands. -/
theorem IsSpectator_iff_not_reserved :
    (∀ c : ℤ, IsSpectator c = true ↔ (c ≠ CoalitionBlue ∧ c ≠ CoalitionRed)) ∧
    IsSpectator CoalitionBlue = false ∧ IsSpectator CoalitionRed = false ∧
    IsSpectator 0 = true ∧
    (∀ c : ℤ, 3 ≤ c → IsSpectator c = true) := by
  refine ⟨fun c => ?_, by decide, by decide, by decide, fun c hc => ?_⟩
  · simp [IsSpectator, not_or]
  · simp only [IsSpectator, CoalitionBlue, CoalitionRed, Bool.not_eq_true']
    simp only [Bool.or_eq_false_iff, beq_eq_false_iff_ne, ne_eq]
    omega

/-- Witness for C4 at the concrete coalition value 47. -/
theorem IsSpectator_iff_not_reserved_witness :
    (3 : ℤ) ≤ 47 ∧ IsSpectator 47 = true :=
  ⟨by decide, IsSpectator_iff_not_reserved.2.2.2.2 47 (by decide)⟩

/-! Claim C2. -/

/-- C2 is false of the code as a code bug: the trigger vocabulary contains
only the full form "spiked" and no shortened form "spike", so the
repository's own test transmission "Anyface Raven 1-4, Spike 0-2-0" (shown
here sanitized and tokenized), which the test expects to parse into a
bearing-report request with bearing 20, fails to parse at all: no trigger
ever matches and Parse returns failure. -/
theorem spike_short_form_missing :
    (requestWords.map requestWordText).contains "spike" = false ∧
    (requestWords.map requestWordText).contains "spiked" = true ∧
    ParseTokens noHandlers New ["anyface", "raven", "1", "4", "spike", "0", "2", "0"] = none := by
  decide

/-! Claim C10. -/

/-- C10: the exported constructor configures an empty controller callsign;
whitespace tokenization never yields an empty token; hence for every input
text whose first token is not the universal alias "anyface", Parse fails,
whichever parsers handle the requests that are absent from the sources. -/
theorem parse_not_addressed (other : Handlers) (s : String)
    (h : (tokenize s).head? ≠ some anyface) :
    New.callsign = "" ∧ (∀ t ∈ tokenize s, t ≠ "") ∧
    ParseTokens other New (tokenize s) = none := by
  refine ⟨rfl, fun t ht => tokenize_mem_ne_empty s t ht, ?_⟩
  cases htok : tokenize s with
  | nil => simp [ParseTokens, parseWakeWord]
  | cons t rest =>
    have ht : t ≠ "" := tokenize_mem_ne_empty s t (htok ▸ List.mem_cons_self t rest)
    have ha : t ≠ anyface := by
      rw [htok] at h
      simpa using h
    simp [ParseTokens, parseWakeWord, New, ht, ha]

/-- Witness for C10 on a concrete transmission not opened by "anyface". -/
theorem parse_not_addressed_witness :
    (tokenize "eagle 1 spiked 2 7 0").head? ≠ some anyface ∧
    ParseTokens noHandlers New (tokenize "eagle 1 spiked 2 7 0") = none :=
  ⟨by decide, (parse_not_addressed noHandlers "eagle 1 spiked 2 7 0" (by decide)).2.2⟩

/-! Arithmetic facts about the banding step. -/

theorem ratFloor_eq (q : ℚ) : Rat.floor q = ⌊q⌋ := by
  rw [Rat.floor_def', Rat.floor_def]

theorem goRound_intCast (k : ℤ) : goRound (k : ℚ) = k := by
  unfold goRound
  by_cases h : (0 : ℚ) ≤ (k : ℚ)
  · rw [if_pos h, ratFloor_eq, Int.floor_int_add]
    norm_num
  · rw [if_neg h, ratFloor_eq]
    have : (1 : ℚ) / 2 - k = 1 / 2 - (k : ℚ) := rfl
    rw [this, Int.floor_sub_int]
    norm_num

theorem band_int_mul (x : ℚ) : ∃ k : ℤ, band x = (k : ℚ) * 1000 :=
  ⟨goRound (x / 1000), rfl⟩

theorem band_intCast_mul (k : ℤ) : band ((k : ℚ) * 1000) = (k : ℚ) * 1000 := by
  unfold band
  have h : (k : ℚ) * 1000 / 1000 = (k : ℚ) := by norm_num
  rw [h, goRound_intCast]

theorem band_idem (x : ℚ) : band (band x) = band x := by
  obtain ⟨k, hk⟩ := band_int_mul x
  rw [hk, band_intCast_mul]

theorem band_fixed_iff (x : ℚ) : band x = x ↔ ∃ k : ℤ, x = (k : ℚ) * 1000 := by
  constructor
  · intro h
    obtain ⟨k, hk⟩ := band_int_mul x
    exact ⟨k, by rw [← h, hk]⟩
  · rintro ⟨k, rfl⟩
    exact band_intCast_mul k

theorem band_gap_strict (j k : ℤ) (h : (j : ℚ) * 1000 ≤ (k : ℚ) * 1000 - 9900) :
    (j : ℚ) * 1000 + 9900 < (k : ℚ) * 1000 := by
  have h9 : (9 : ℤ) < k - j := by
    have hq : (9 : ℚ) < (k : ℚ) - (j : ℚ) := by linarith
    exact_mod_cast hq
  have h10 : (10 : ℚ) ≤ (k : ℚ) - (j : ℚ) := by
    have : (10 : ℤ) ≤ k - j := by omega
    exact_mod_cast this
  linarith

/-! Invariants of the stack-building loop. -/

theorem pushAlt_sumCounts (alt : ℚ) (st : List Stack) :
    sumCounts (pushAlt alt st) = sumCounts st + 1 := by
  induction st with
  | nil => simp [pushAlt, sumCounts]
  | cons s ss ih =>
    cases ss with
    | nil =>
      by_cases h : alt ≤ s.altitude - 9900
      · simp [pushAlt, h, sumCounts]
      · simp [pushAlt, h, sumCounts]
    | cons s2 ss2 =>
      simp only [pushAlt, sumCounts, List.map_cons, List.sum_cons] at ih ⊢
      omega

theorem pushAlt_head_altitude (alt : ℚ) (s : Stack) (ss : List Stack) :
    ∃ c, (pushAlt alt (s :: ss)).head? = some ⟨s.altitude, c⟩ := by
  cases ss with
  | nil =>
    by_cases h : alt ≤ s.altitude - 9900
    · exact ⟨s.count, by simp [pushAlt, h]⟩
    · exact ⟨s.count + 1, by simp [pushAlt, h]⟩
  | cons s2 ss2 => exact ⟨s.count, by simp [pushAlt]⟩

theorem pushAlt_mem (alt : ℚ) : ∀ (st : List Stack),
    ∀ x ∈ pushAlt alt st, x.altitude = alt ∨ x.altitude ∈ st.map Stack.altitude := by
  intro st
  induction st with
  | nil =>
    intro x hx
    simp [pushAlt] at hx
    subst hx
    simp
  | cons s ss ih =>
    cases ss with
    | nil =>
      intro x hx
      by_cases h : alt ≤ s.altitude - 9900
      · simp only [pushAlt, if_pos h, List.mem_cons, List.not_mem_nil, or_false] at hx
        rcases hx with rfl | rfl
        · right; simp
        · left; rfl
      · simp only [pushAlt, if_neg h, List.mem_cons, List.not_mem_nil, or_false] at hx
        subst hx
        right; simp
    | cons s2 ss2 =>
      intro x hx
      simp only [pushAlt, List.mem_cons] at hx
      rcases hx with rfl | hx
      · right; simp
      · rcases ih x hx with h | h
        · exact Or.inl h
        · right
          rw [List.map_cons]
          exact List.mem_cons_of_mem _ h

theorem pushAlt_chain (alt : ℚ) (halt : ∃ k : ℤ, alt = (k : ℚ) * 1000) :
    ∀ (st : List Stack),
    (∀ s ∈ st, ∃ k : ℤ, s.altitude = (k : ℚ) * 1000) →
    List.Chain' stackGap st → List.Chain' stackGap (pushAlt alt st) := by
  intro st
  induction st with
  | nil =>
    intro _ _
    simp [pushAlt]
  | cons s ss ih =>
    cases ss with
    | nil =>
      intro hst _
      by_cases h : alt ≤ s.altitude - 9900
      · obtain ⟨k, hk⟩ := hst s (List.mem_cons_self s [])
        obtain ⟨j, hj⟩ := halt
        have hgap := band_gap_strict j k (by rw [← hj, ← hk]; exact h)
        simp only [pushAlt, if_pos h]
        rw [List.chain'_cons']
        refine ⟨?_, by simp⟩
        intro y hy
        simp at hy
        subst hy
        show alt + 9900 < s.altitude
        rw [hj, hk]
        exact hgap
      · simp [pushAlt, if_neg h]
    | cons s2 ss2 =>
      intro hst hch
      rw [List.chain'_cons'] at hch
      simp only [pushAlt]
      rw [List.chain'_cons']
      constructor
      · obtain ⟨c, hc⟩ := pushAlt_head_altitude alt s2 ss2
        intro y hy
        rw [hc] at hy
        simp at hy
        subst hy
        have := hch.1 s2 (by simp)
        exact this
      · exact ih (fun t ht => hst t (List.mem_cons_of_mem s ht)) hch.2

theorem foldl_pushAlt_inv (l : List ℚ) : ∀ (st : List Stack),
    (∀ x ∈ l, ∃ k : ℤ, x = (k : ℚ) * 1000) →
    (∀ s ∈ st, ∃ k : ℤ, s.altitude = (k : ℚ) * 1000) →
    List.Chain' stackGap st →
    List.Chain' stackGap (l.foldl (fun acc alt => pushAlt alt acc) st) ∧
    sumCounts (l.foldl (fun acc alt => pushAlt alt acc) st) = sumCounts st + l.length ∧
    (∀ s ∈ l.foldl (fun acc alt => pushAlt alt acc) st,
      s.altitude ∈ st.map Stack.altitude ∨ s.altitude ∈ l) := by
  induction l with
  | nil =>
    intro st _ hst hch
    exact ⟨hch, rfl, fun s hs => Or.inl (List.mem_map_of_mem Stack.altitude hs)⟩
  | cons x xs ih =>
    intro st hl hst hch
    have hx : ∃ k : ℤ, x = (k : ℚ) * 1000 := hl x (List.mem_cons_self x xs)
    have hst' : ∀ s ∈ pushAlt x st, ∃ k : ℤ, s.altitude = (k : ℚ) * 1000 := by
      intro s hs
      rcases pushAlt_mem x st s hs with h | h
      · rw [h]; exact hx
      · obtain ⟨t, ht, hts⟩ := List.mem_map.mp h
        rw [← hts]
        exact hst t ht
    have hch' := pushAlt_chain x hx st hst hch
    obtain ⟨c1, c2, c3⟩ := ih (pushAlt x st) (fun y hy => hl y (List.mem_cons_of_mem x hy)) hst' hch'
    refine ⟨c1, ?_, ?_⟩
    · rw [List.foldl_cons, c2, pushAlt_sumCounts]
      simp only [List.length_cons]
      omega
    · intro s hs
      rw [List.foldl_cons] at hs
      rcases c3 s hs with h | h
      · obtain ⟨t, ht, hts⟩ := List.mem_map.mp h
        rcases pushAlt_mem x st t ht with h2 | h2
        · right
          rw [← hts, h2]
          exact List.mem_cons_self x xs
        · left
          rw [← hts]
          exact h2
      · right
        exact List.mem_cons_of_mem x h

/-! Claim C6. -/

/-- C6: for every input list of altitudes, the stacks returned by `Stacks`
count every input exactly once (the counts sum to the input length), every
stack's altitude is one of the inputs rounded to the nearest 1000-unit band,
and each consecutive pair of stacks is separated by strictly more than 9900
units, the earlier stack being the higher. -/
theorem Stacks_invariants (a : List ℚ) :
    sumCounts (Stacks a) = a.length ∧
    (∀ s ∈ Stacks a, s.altitude ∈ a.map band) ∧
    List.Chain' stackGap (Stacks a) := by
  have hmem : ∀ x ∈ ((a.map band).insertionSort (· ≤ ·)).reverse, x ∈ a.map band := by
    intro x hx
    rw [List.mem_reverse] at hx
    exact (List.mem_insertionSort (· ≤ ·)).mp hx
  have hmul : ∀ x ∈ ((a.map band).insertionSort (· ≤ ·)).reverse, ∃ k : ℤ, x = (k : ℚ) * 1000 := by
    intro x hx
    obtain ⟨y, _, hy⟩ := List.mem_map.mp (hmem x hx)
    rw [← hy]
    exact band_int_mul y
  obtain ⟨c1, c2, c3⟩ := foldl_pushAlt_inv
    ((a.map band).insertionSort (· ≤ ·)).reverse [] hmul (by simp) (by simp)
  refine ⟨?_, ?_, c1⟩
  · rw [Stacks, StacksRun] at *
    simp only at c2 ⊢
    rw [c2]
    simp [sumCounts, List.length_insertionSort]
  · intro s hs
    rcases c3 s hs with h | h
    · simp at h
    · exact hmem _ h

theorem insertionSort_replicate (m : ℕ) (y : ℚ) :
    (List.replicate m y).insertionSort (· ≤ ·) = List.replicate m y := by
  induction m with
  | zero => simp [List.insertionSort]
  | succ m ih =>
    rw [List.replicate_succ, List.insertionSort, ih]
    cases m with
    | zero => simp [List.orderedInsert]
    | succ m2 =>
      rw [List.replicate_succ, List.orderedInsert, if_pos (le_refl y)]

theorem foldl_pushAlt_replicate (m : ℕ) (y : ℚ) : ∀ (c : ℕ),
    (List.replicate m y).foldl (fun st alt => pushAlt alt st) [⟨y, c⟩] = [⟨y, c + m⟩] := by
  induction m with
  | zero => intro c; rfl
  | succ m ih =>
    intro c
    rw [List.replicate_succ, List.foldl_cons]
    have hp : pushAlt y [⟨y, c⟩] = [⟨y, c + 1⟩] := by
      have hc : ¬y ≤ y - 9900 := by linarith
      simp [pushAlt, hc]
    rw [hp, ih (c + 1)]
    have : c + 1 + m = c + (m + 1) := by omega
    rw [this]

/-! Claim C5. -/

/-- C5: `Stacks` on the altitudes 25000, 24000 and 10000 feet returns exactly
the two stacks 25000 (count 2) and 10000 (count 1), in that order; on an
empty altitude list it returns the empty list; and on any non-empty list of
identical altitudes it returns exactly one stack whose count is the list
length. -/
theorem Stacks_examples :
    Stacks [25000, 24000, 10000] = [⟨25000, 2⟩, ⟨10000, 1⟩] ∧
    Stacks [] = [] ∧
    ∀ (x : ℚ) (n : ℕ), Stacks (List.replicate (n + 1) x) = [⟨band x, n + 1⟩] := by
  refine ⟨?_, rfl, ?_⟩
  · norm_num [Stacks, StacksRun, band, goRound, ratFloor_eq, List.insertionSort,
      List.orderedInsert, pushAlt]
  · intro x n
    unfold Stacks StacksRun
    simp only [List.map_replicate, insertionSort_replicate, List.reverse_replicate]
    rw [List.replicate_succ, List.foldl_cons]
    have h0 : pushAlt (band x) [] = [⟨band x, 1⟩] := rfl
    rw [h0, foldl_pushAlt_replicate n (band x) 1]
    have : 1 + n = n + 1 := by omega
    rw [this]

/-! Claim C7. -/

theorem map_eq_self_of_mem {f : ℚ → ℚ} : ∀ (l : List ℚ), (∀ x ∈ l, f x = x) → l.map f = l := by
  intro l
  induction l with
  | nil => intro _; rfl
  | cons x xs ih =>
    intro h
    rw [List.map_cons, h x (List.mem_cons_self x xs),
      ih fun y hy => h y (List.mem_cons_of_mem x hy)]

/-- C7 is false of the code: `Stacks` does not take a defensive copy. It
rounds the argument slice in place and sorts it in place ascending, so a
caller passing a slice sees its collection mutated: on input
[25000, 24000, 10000] the slice afterwards holds [10000, 24000, 25000]. -/
theorem StacksRun_mutates_input :
    (StacksRun [25000, 24000, 10000]).2 ≠ [25000, 24000, 10000] := by
  norm_num [StacksRun, band, goRound, ratFloor_eq, List.insertionSort, List.orderedInsert]

/-- C7 amended: the returned stacks are a pure function of the input values,
but the argument slice is rounded and sorted in place: after the call it
holds the banded values in ascending order, and it is left unmodified exactly
when every element already equals its band and the list is already sorted
ascending. -/
theorem StacksRun_final_slice_iff (a : List ℚ) :
    (StacksRun a).2 = (a.map band).insertionSort (· ≤ ·) ∧
    ((StacksRun a).2 = a ↔ a.map band = a ∧ List.Sorted (· ≤ ·) a) := by
  refine ⟨rfl, ?_, ?_⟩
  · intro h
    replace h : (a.map band).insertionSort (· ≤ ·) = a := h
    have hsorted : List.Sorted (· ≤ ·) a := by
      rw [← h]
      exact List.sorted_insertionSort (· ≤ ·) (a.map band)
    have hpt : ∀ x ∈ a, band x = x := by
      intro x hx
      rw [← h] at hx
      have hx3 : x ∈ a.map band := (List.mem_insertionSort (· ≤ ·)).mp hx
      obtain ⟨y, _, hy⟩ := List.mem_map.mp hx3
      rw [← hy, band_idem]
    exact ⟨map_eq_self_of_mem a hpt, hsorted⟩
  · rintro ⟨hmap, hsort⟩
    show (a.map band).insertionSort (· ≤ ·) = a
    rw [hmap]
    exact hsort.insertionSort_eq

/-! Helper lemmas for the trigger scanner. -/

theorem scanLoop_append (toks : List String) : ∀ (seg : String) (rest : List String),
    (∀ k, k < toks.length →
      firstMatch ((toks.take (k + 1)).foldl (fun s t => s ++ " " ++ t) seg) = none) →
    scanLoop seg (toks ++ rest) = scanLoop (toks.foldl (fun s t => s ++ " " ++ t) seg) rest := by
  induction toks with
  | nil => intro seg rest _; rfl
  | cons t ts ih =>
    intro seg rest hno
    have h0 : firstMatch (seg ++ " " ++ t) = none := by
      have := hno 0 (Nat.succ_pos ts.length)
      simpa using this
    show scanLoop seg (t :: (ts ++ rest)) = _
    rw [scanLoop.eq_def]
    simp only [h0]
    rw [ih (seg ++ " " ++ t) rest ?_]
    · simp
    · intro k hk
      have := hno (k + 1) (Nat.succ_lt_succ hk)
      simpa using this

theorem suffix_getLast (l₁ l₂ : List Char) (h : l₁ <:+ l₂) (hne : l₁ ≠ []) :
    l₂.getLast? = l₁.getLast? := by
  obtain ⟨t, rfl⟩ := h
  rw [List.getLast?_append]
  cases hl : l₁.getLast? with
  | none => exact absurd (List.getLast?_eq_none_iff.mp hl) hne
  | some c => rfl

theorem hasSuffix_append_self (S w : String) : hasSuffix (S ++ w) w = true := by
  unfold hasSuffix
  rw [List.isSuffixOf_iff_suffix]
  exact ⟨S.data, by rw [String.data_append]⟩

theorem not_hasSuffix_of_getLast_ne (s w : String) (c d : Char)
    (hw : w.data.getLast? = some c) (hs : s.data.getLast? = some d) (hcd : c ≠ d) :
    hasSuffix s w = false := by
  unfold hasSuffix
  rw [Bool.eq_false_iff]
  intro hsuf
  rw [List.isSuffixOf_iff_suffix] at hsuf
  have hne : w.data ≠ [] := by
    intro h
    rw [h] at hw
    simp at hw
  have := suffix_getLast w.data s.data hsuf hne
  rw [hs, hw] at this
  exact hcd (by simpa using this.symm)

theorem segment_spiked_getLast (S : String) :
    (S ++ " " ++ "spiked").data.getLast? = some 'd' := by
  rw [String.data_append]
  rw [List.getLast?_append]
  have : ("spiked".data).getLast? = some 'd' := by decide
  rw [this]
  rfl

theorem firstMatch_spiked (S : String) :
    firstMatch (S ++ " " ++ "spiked") = some .spiked := by
  have hlast := segment_spiked_getLast S
  have h1 : hasSuffix (S ++ " " ++ "spiked") "alpha check" = false :=
    not_hasSuffix_of_getLast_ne _ _ 'k' 'd' (by decide) hlast (by decide)
  have h2 : hasSuffix (S ++ " " ++ "spiked") "bogey dope" = false :=
    not_hasSuffix_of_getLast_ne _ _ 'e' 'd' (by decide) hlast (by decide)
  have h3 : hasSuffix (S ++ " " ++ "spiked") "declare" = false :=
    not_hasSuffix_of_getLast_ne _ _ 'e' 'd' (by decide) hlast (by decide)
  have h4 : hasSuffix (S ++ " " ++ "spiked") "picture" = false :=
    not_hasSuffix_of_getLast_ne _ _ 'e' 'd' (by decide) hlast (by decide)
  have h5 : hasSuffix (S ++ " " ++ "spiked") "radio check" = false :=
    not_hasSuffix_of_getLast_ne _ _ 'k' 'd' (by decide) hlast (by decide)
  have h6 : hasSuffix (S ++ " " ++ "spiked") "spiked" = true :=
    hasSuffix_append_self (S ++ " ") "spiked"
  simp [firstMatch, requestWords, List.find?, requestWordText, h1, h2, h3, h4, h5, h6]

theorem trimSuffix_append (S w : String) : trimSuffix (S ++ w) w = S := by
  unfold trimSuffix
  rw [if_pos (hasSuffix_append_self S w)]
  rw [String.data_append, List.length_append]
  have hlen : S.data.length + w.data.length - w.data.length = S.data.length := by omega
  rw [hlen, List.take_left]

theorem space_data : (" " : String).data = [' '] := rfl

theorem foldlSeg_data (toks : List String) : ∀ (S : String),
    (toks.foldl (fun s t => s ++ " " ++ t) S).data
      = S.data ++ (toks.map fun t => ' ' :: t.data).flatten := by
  induction toks with
  | nil => intro S; simp
  | cons t ts ih =>
    intro S
    rw [List.foldl_cons, ih (S ++ " " ++ t)]
    simp only [String.data_append, space_data, List.map_cons, List.flatten]
    simp [List.append_assoc]

theorem splitWordsAux_word (w : List Char) (hw : ∀ c ∈ w, c.isWhitespace = false) :
    ∀ (acc rest : List Char), splitWordsAux acc (w ++ rest) = splitWordsAux (w.reverse ++ acc) rest := by
  induction w with
  | nil => intro acc rest; simp
  | cons c w' ih =>
    intro acc rest
    have hc : c.isWhitespace = false := hw c (List.mem_cons_self c w')
    show splitWordsAux acc (c :: (w' ++ rest)) = _
    rw [splitWordsAux]
    rw [hc]
    simp only [Bool.false_eq_true, if_false]
    rw [ih (fun d hd => hw d (List.mem_cons_of_mem c hd)) (c :: acc) rest]
    simp [List.append_assoc]

theorem splitWords_go (toks : List String) :
    (∀ t ∈ toks, t.data ≠ [] ∧ ∀ c ∈ t.data, c.isWhitespace = false) →
    splitWordsAux [] ((toks.map fun t => ' ' :: t.data).flatten ++ [' ']) = toks := by
  induction toks with
  | nil =>
    intro _
    simp [splitWordsAux]
  | cons t ts ih =>
    intro h
    obtain ⟨htne, htw⟩ := h t (List.mem_cons_self t ts)
    have hrest := ih fun u hu => h u (List.mem_cons_of_mem t hu)
    simp only [List.map_cons, List.flatten]
    show splitWordsAux [] (((' ' :: t.data) ++ (ts.map fun u => ' ' :: u.data).flatten) ++ [' ']) = t :: ts
    rw [List.cons_append, List.cons_append]
    rw [splitWordsAux]
    simp only [show (' ').isWhitespace = true by decide, if_true, List.isEmpty_nil]
    rw [List.append_assoc]
    rw [splitWordsAux_word t.data htw [] ((ts.map fun u => ' ' :: u.data).flatten ++ [' '])]
    cases hts : ts with
    | nil =>
      simp only [hts, List.map_nil, List.flatten, List.nil_append]
      rw [splitWordsAux]
      simp only [show (' ').isWhitespace = true by decide, if_true]
      rw [if_neg (by simpa using htne)]
      simp [splitWordsAux]
    | cons t2 ts2 =>
      simp only [List.map_cons, List.flatten]
      show splitWordsAux (t.data.reverse ++ []) (((' ' :: t2.data) ++ (ts2.map fun u => ' ' :: u.data).flatten) ++ [' ']) = t :: t2 :: ts2
      rw [List.cons_append, List.cons_append]
      rw [splitWordsAux]
      simp only [show (' ').isWhitespace = true by decide, if_true]
      rw [if_neg (by simpa using htne)]
      have hstep : splitWordsAux [] ((' ' :: t2.data) ++ ((ts2.map fun u => ' ' :: u.data).flatten ++ [' '])) =
          splitWordsAux [] (t2.data ++ ((ts2.map fun u => ' ' :: u.data).flatten ++ [' '])) := by
        rw [List.cons_append, splitWordsAux]
        simp [show (' ').isWhitespace = true by decide]
      rw [hts] at hrest
      simp only [List.map_cons, List.flatten] at hrest
      rw [show ((' ' :: t2.data) ++ (ts2.map fun u => ' ' :: u.data).flatten) ++ [' ']
          = (' ' :: t2.data) ++ ((ts2.map fun u => ' ' :: u.data).flatten ++ [' ']) from by
        simp [List.append_assoc]] at hrest
      rw [hstep] at hrest
      rw [List.append_assoc]
      rw [hrest]
      congr 1
      show String.mk ((t.data.reverse ++ []).reverse) = t
      simp

theorem tokenize_accum (toks : List String)
    (h : ∀ t ∈ toks, t.data ≠ [] ∧ ∀ c ∈ t.data, c.isWhitespace = false) :
    tokenize ((toks.foldl (fun s t => s ++ " " ++ t) "") ++ " ") = toks := by
  unfold tokenize
  rw [String.data_append, foldlSeg_data toks "", space_data]
  have hemp : ("" : String).data = [] := rfl
  rw [hemp, List.nil_append]
  exact splitWords_go toks h

theorem scanLoop_trigger (csToks : List String) (tw : String) (rest : List String)
    (w : requestWord) (cs : String)
    (hnoearly : ∀ k, k < csToks.length → firstMatch (accumSeg (csToks.take (k + 1))) = none)
    (hmatch : firstMatch (accumSeg csToks ++ " " ++ tw) = some w)
    (hcs : parseCallsign
      (tokenize (trimSuffix (accumSeg csToks ++ " " ++ tw) (requestWordText w))) = (cs, true)) :
    scanLoop "" (csToks ++ tw :: rest) = some (w, cs, rest.headD "", rest.tail) := by
  have hne := parseCallsign_true_ne_empty _ _ hcs
  unfold accumSeg at hnoearly hmatch hcs
  rw [scanLoop_append csToks "" (tw :: rest) hnoearly]
  rw [scanLoop.eq_def]
  simp only [hmatch, hcs, if_neg hne]

/-! Claim C1. -/

/-- C1 as amended: for every transmission made of the universal alias, a
decodable callsign segment none of whose accumulated prefixes already ends in
a trigger phrase, the bearing-report trigger "spiked", and exactly three
digit tokens, Parse succeeds with a bearing-report request carrying the
decoded callsign and the angle composed from the three digits in order
(hundreds from the first post-trigger token). The amendment over the claim as
frozen is the no-early-trigger proviso on the callsign segment; the token
well-formedness hypotheses merely say the segment consists of genuine
whitespace-free tokens. -/
theorem parse_spiked_bearing (other : Handlers) (csToks : List String)
    (d1 d2 d3 : String) (v1 v2 v3 : ℕ) (cs : String)
    (htok : ∀ t ∈ csToks, t.data ≠ [] ∧ ∀ c ∈ t.data, c.isWhitespace = false)
    (hnoearly : ∀ k, k < csToks.length → firstMatch (accumSeg (csToks.take (k + 1))) = none)
    (hcs : parseCallsign csToks = (cs, true))
    (h1 : numberWords d1 = some v1) (h2 : numberWords d2 = some v2)
    (h3 : numberWords d3 = some v3) :
    ParseTokens other New ("anyface" :: (csToks ++ "spiked" :: [d1, d2, d3])) =
      some (.spikedRequest cs (100 * v1 + 10 * v2 + v3)) := by
  have hmatch : firstMatch (accumSeg csToks ++ " " ++ "spiked") = some .spiked :=
    firstMatch_spiked (accumSeg csToks)
  have htrim : trimSuffix (accumSeg csToks ++ " " ++ "spiked") (requestWordText .spiked)
      = accumSeg csToks ++ " " :=
    trimSuffix_append (accumSeg csToks ++ " ") "spiked"
  have htokz : tokenize (accumSeg csToks ++ " ") = csToks := tokenize_accum csToks htok
  have hcs' : parseCallsign
      (tokenize (trimSuffix (accumSeg csToks ++ " " ++ "spiked") (requestWordText .spiked)))
      = (cs, true) := by
    rw [htrim, htokz]
    exact hcs
  have hscan := scanLoop_trigger csToks "spiked" [d1, d2, d3] .spiked cs hnoearly hmatch hcs'
  simp only [ParseTokens, parseWakeWord]
  rw [if_pos (show "anyface" = New.callsign ∨ "anyface" = anyface from Or.inr rfl)]
  simp only [hscan, dispatch, parseSpiked, h1, List.headD, List.tail, h2, h3]

/-- Witness for C1 at the repository's own test transmission
"ANYFACE, EAGLE 1 SPIKED 2-7-0": the result is a bearing-report request for
callsign "eagle 1" with bearing 270. -/
theorem parse_spiked_bearing_witness :
    parseCallsign ["eagle", "1"] = ("eagle 1", true) ∧
    numberWords "2" = some 2 ∧
    ParseTokens noHandlers New ["anyface", "eagle", "1", "spiked", "2", "7", "0"] =
      some (.spikedRequest "eagle 1" 270) :=
  ⟨by decide, by decide,
   parse_spiked_bearing noHandlers ["eagle", "1"] "2" "7" "0" 2 7 0 "eagle 1"
     (by decide) (by decide) (by decide) (by decide) (by decide) (by decide)⟩

/-- C1 as frozen is false: the transmission below opens with the universal
alias, its callsign segment "declare 1" is decodable (parseCallsign accepts
it), the bearing-report trigger "spiked" follows, then exactly three digit
tokens — yet Parse fails, because the earlier trigger word "declare" is
matched first, leaving an empty callsign segment. -/
theorem parse_spiked_bearing_cex :
    parseCallsign ["declare", "1"] = ("declare 1", true) ∧
    numberWords "2" = some 2 ∧ numberWords "7" = some 7 ∧ numberWords "0" = some 0 ∧
    ParseTokens noHandlers New ["anyface", "declare", "1", "spiked", "2", "7", "0"] = none := by
  decide

/-! Claim C3. -/

/-- C3 as frozen is false: on the repository's own test transmission the
claim-version scanner, which really discards the first post-trigger token so
that the per-request parser first consumes the second one, fails to parse,
while the source scanner returns bearing 270 — and changing only the first
post-trigger token changes the bearing, so the per-request parser does see
that token. -/
theorem post_trigger_token_discarded_cex :
    ParseTokensClaim noHandlers New ["anyface", "eagle", "1", "spiked", "2", "7", "0"] = none ∧
    ParseTokens noHandlers New ["anyface", "eagle", "1", "spiked", "2", "7", "0"] =
      some (.spikedRequest "eagle 1" 270) ∧
    ParseTokens noHandlers New ["anyface", "eagle", "1", "spiked", "3", "7", "0"] =
      some (.spikedRequest "eagle 1" 370) := by
  decide

/-- C3 as amended: after the trigger match and a successful callsign parse
the scanner is advanced exactly once more, but the advanced-to token is
handed to the per-request parser as the scanner's current token: the
per-request parser receives the first post-trigger token `t1` and consumes it
first; no token is discarded. -/
theorem post_trigger_first_token_consumed (other : Handlers) (p : parserState)
    (first : String) (csToks : List String) (tw t1 : String) (rest : List String)
    (w : requestWord) (cs : String)
    (hfirst : first = p.callsign ∨ first = anyface)
    (hnoearly : ∀ k, k < csToks.length → firstMatch (accumSeg (csToks.take (k + 1))) = none)
    (hmatch : firstMatch (accumSeg csToks ++ " " ++ tw) = some w)
    (hcs : parseCallsign
      (tokenize (trimSuffix (accumSeg csToks ++ " " ++ tw) (requestWordText w))) = (cs, true)) :
    ParseTokens other p (first :: (csToks ++ tw :: t1 :: rest)) = dispatch other w cs t1 rest := by
  have hscan := scanLoop_trigger csToks tw (t1 :: rest) w cs hnoearly hmatch hcs
  simp only [ParseTokens, parseWakeWord]
  rw [if_pos hfirst]
  simp only [hscan, List.headD, List.tail]

/-- Witness for the amended C3 at the full-form variant of the repository's
second test transmission: the per-request parser is invoked with the first
post-trigger token "0" as its current token, and composes bearing 20 from
the three digits. -/
theorem post_trigger_first_token_consumed_witness :
    firstMatch (accumSeg ["raven", "1", "4"] ++ " " ++ "spiked") = some .spiked ∧
    ParseTokens noHandlers New ["anyface", "raven", "1", "4", "spiked", "0", "2", "0"] =
      dispatch noHandlers .spiked "raven 1 4" "0" ["2", "0"] ∧
    dispatch noHandlers .spiked "raven 1 4" "0" ["2", "0"] =
      some (.spikedRequest "raven 1 4" 20) :=
  ⟨by decide,
   post_trigger_first_token_consumed noHandlers New "anyface" ["raven", "1", "4"]
     "spiked" "0" ["2", "0"] .spiked "raven 1 4" (Or.inr rfl)
     (by decide) (by decide) (by decide),
   by decide⟩

end Skyeye
